import Mathlib

/-!
Verification development for the SQL-grammar railroad-diagram generation
pipeline (`generate/main.go`).

Byte strings are modelled as `List Char`.  The `extract` package
(`ParseGrammar`, `Inline`, `ExtractProduction`, `GenerateRR`, `ExtractTag`,
`InnerTag`) is not part of the sources; it is abstracted as an oracle
(`Collab`) over which the theorems universally quantify, with failure modes
taken from the specification (unknown root production, empty extraction,
renderer failure).

Go maps (`replace`, `regreplace` of `stmtSpec`) have an unspecified
iteration order under `range`; the model therefore carries the actually
iterated association list separately and relates it to the declared entry
list by `List.Perm`.
-/

set_option maxRecDepth 4000

namespace GenDocs

/-- `bytes.Replace(s, old, new, -1)` / `strings.Replace(s, old, new, -1)`:
replace every non-overlapping occurrence of `old` in `s` by `new`, scanning
left to right; replaced text is not rescanned.  (Go's special case for an
empty `old` inserts `new` between runes; every pattern used by the program
is non-empty, and this model leaves `s` unchanged for empty `old`.) -/
def replaceAllF (old new : List Char) : Nat → List Char → List Char
  | 0, s => s
  | _ + 1, [] => []
  | fuel + 1, c :: t =>
    if old ≠ [] ∧ old.isPrefixOf (c :: t) then
      new ++ replaceAllF old new fuel ((c :: t).drop old.length)
    else
      c :: replaceAllF old new fuel t

/-- `replaceAllF` on the empty list. -/
theorem replaceAllF_nil (old new : List Char) (f : Nat) :
    replaceAllF old new f [] = [] := by
  cases f <;> rfl

/-- `replaceAllF` does not depend on the fuel once it covers the input. -/
theorem replaceAllF_congr (old new : List Char) :
    ∀ f1 f2 s, s.length ≤ f1 → s.length ≤ f2 →
      replaceAllF old new f1 s = replaceAllF old new f2 s := by
  intro f1
  induction f1 with
  | zero =>
    intro f2 s h1 h2
    have : s = [] := List.length_eq_zero.mp (Nat.le_zero.mp h1)
    subst this
    rw [replaceAllF_nil, replaceAllF_nil]
  | succ a ih =>
    intro f2 s h1 h2
    cases s with
    | nil => rw [replaceAllF_nil, replaceAllF_nil]
    | cons c t =>
      cases f2 with
      | zero => simp at h2
      | succ b =>
        simp only [replaceAllF]
        simp only [List.length_cons] at h1 h2
        split
        · rename_i hc
          have hol : 0 < old.length := List.length_pos.mpr hc.1
          have hd : ((c :: t).drop old.length).length ≤ t.length := by
            simp only [List.length_drop, List.length_cons]
            omega
          congr 1
          exact ih b _ (by omega) (by omega)
        · congr 1
          exact ih b t (by omega) (by omega)

/-- The replace-every-occurrence function, with fuel instantiated. -/
def replaceAll (old new s : List Char) : List Char :=
  replaceAllF old new s.length s

/-- `replaceAll` on the empty list. -/
theorem replaceAll_nil (old new : List Char) : replaceAll old new [] = [] := rfl

/-- Unfolding equation for `replaceAll` on a cons cell. -/
theorem replaceAll_cons (old new : List Char) (c : Char) (t : List Char) :
    replaceAll old new (c :: t) =
      if old ≠ [] ∧ old.isPrefixOf (c :: t) then
        new ++ replaceAll old new ((c :: t).drop old.length)
      else
        c :: replaceAll old new t := by
  show replaceAllF old new (t.length + 1) (c :: t) = _
  simp only [replaceAllF]
  split
  · rename_i hc
    have hol : 0 < old.length := List.length_pos.mpr hc.1
    congr 1
    apply replaceAllF_congr
    · simp only [List.length_drop, List.length_cons]
      omega
    · exact Nat.le_refl _
  · rfl

/-- `strings.Replace(s, old, new, 1)`: replace only the first occurrence. -/
def replaceFirst (old new : List Char) (s : List Char) : List Char :=
  match s with
  | [] => []
  | c :: t =>
    if old ≠ [] ∧ old.isPrefixOf (c :: t) then
      new ++ (c :: t).drop old.length
    else
      c :: replaceFirst old new t

/-- Split `s` at the first occurrence of `pat`: returns
`some (before, after)` with `s = before ++ pat ++ after`, or `none` when
`pat` does not occur in `s`. -/
def splitAtPat (pat : List Char) (s : List Char) : Option (List Char × List Char) :=
  match s with
  | [] => if pat.isPrefixOf [] then some ([], []) else none
  | c :: t =>
    if pat.isPrefixOf (c :: t) then
      some ([], (c :: t).drop pat.length)
    else
      (splitAtPat pat t).map (fun p => (c :: p.1, p.2))

/-- A successful `splitAtPat` is a decomposition at the pattern. -/
theorem splitAtPat_eq (pat : List Char) :
    ∀ s p, splitAtPat pat s = some p → s = p.1 ++ pat ++ p.2 := by
  intro s
  induction s with
  | nil =>
    intro p h
    unfold splitAtPat at h
    split at h
    · rename_i hpre
      cases h
      cases pat with
      | nil => rfl
      | cons a l => simp [List.isPrefixOf] at hpre
    · cases h
  | cons c t ih =>
    intro p h
    unfold splitAtPat at h
    split at h
    · rename_i hpre
      cases h
      obtain ⟨r, hr⟩ := List.isPrefixOf_iff_prefix.mp hpre
      rw [← hr]
      simp [List.drop_left]
    · cases h3 : splitAtPat pat t with
      | none => rw [h3] at h; cases h
      | some q =>
        rw [h3] at h
        cases h
        have := ih q h3
        simp only [List.cons_append, List.append_assoc] at this ⊢
        rw [← this]

/-- Lengths in a successful `splitAtPat` decomposition. -/
theorem splitAtPat_length (pat : List Char) (s : List Char)
    (p : List Char × List Char) (h : splitAtPat pat s = some p) :
    p.1.length + pat.length + p.2.length = s.length := by
  have he := splitAtPat_eq pat s p h
  rw [he]
  simp [List.length_append]
  omega

/-- `strings.SplitN(s, sep, 2)[0]`: everything before the first occurrence
of `sep` (all of `s` when `sep` does not occur). -/
def takeBefore (pat : List Char) (s : List Char) : List Char :=
  match splitAtPat pat s with
  | none => s
  | some p => p.1

/-- The two byte-level fixups at the end of `runParse`:
`bytes.Replace(b, "IDENT", "identifier", -1)` followed by
`bytes.Replace(b, "_LA", "", -1)`. -/
def postProcess (b : List Char) : List Char :=
  replaceAll "_LA".data [] (replaceAll "IDENT".data "identifier".data b)

/-- The `stmtSpec` struct of `main.go`.  The Go fields `replace` and
`regreplace` are `map[string]string`; here they are the association lists
of the map literals in declared order (the order of the entries in the
source text).  `matchRe` and `exclude` model `match`/`exclude`
(`[]*regexp.Regexp`) by the regexp source strings, which are only handed to
the extraction oracle. -/
structure stmtSpec where
  name : String
  stmt : String := ""
  inline : List String := []
  replace : List (String × String) := []
  regreplace : List (String × String) := []
  matchRe : List String := []
  exclude : List String := []
  unlink : List String := []
  nosplit : Bool := false
deriving DecidableEq, Repr

/-- Result of the `extract`-package part of `runParse`
(`ParseGrammar` + `Inline` + `ExtractProduction`).
`died e` models `log.Fatal` raised inside `runParse` for `ParseGrammar` or
`Inline` errors; `ok b err` models `ExtractProduction` returning bytes `b`
together with an optional error (unknown root production, empty extraction
after filtering, ...). -/
inductive ExtRes where
  | died (e : String)
  | ok (b : List Char) (err : Option String)
deriving DecidableEq, Repr

/-- Modelled from the spec: the external collaborators used by the
pipeline, absent from the sources (`extract` package and renderer).
`ext` stands for grammar parse + inline + extraction on a private reader
over the shared grammar bytes; `rr` for `runRR` (renderer + XHTML
conversion); `svgTag` for `extract.ExtractTag(r, "svg")`; `bodyTag` for
`extract.InnerTag(r, "body")`.  Each is an arbitrary pure function: the
spec states each worker operates on its own deep copy, so a worker's
collaborator results depend only on the worker's own arguments. -/
structure Collab where
  ext : List Char → List String → String → Bool → Bool → List String → List String → ExtRes
  rr : String → List Char → Except String (List Char)
  svgTag : List Char → Except String (List Char)
  bodyTag : List Char → Except String (List Char)

/-- `runParse` of `main.go`: run the extraction oracle, then apply the
`IDENT` → `identifier` and `_LA` → `""` byte fixups to whatever bytes the
extraction produced, returning them paired with the extraction error.
`.inl e` models the in-function `log.Fatal` calls. -/
def runParse (c : Collab) (r : List Char) (inl : List String) (top : String)
    (descend nosplit : Bool) (mtch excl : List String) :
    Sum String (List Char × Option String) :=
  match c.ext r inl top descend nosplit mtch excl with
  | .died e => .inl e
  | .ok b err => .inr (postProcess b, err)

/-- Root production used by a spec worker:
`if s.stmt == "" { s.stmt = s.name }`. -/
def specRoot (s : stmtSpec) : String :=
  if s.stmt = "" then s.name else s.stmt

/-- One step of the literal-replacement loop
(`g = bytes.Replace(g, []byte(from), []byte(to), -1)`). -/
def litStep (g : List Char) (p : String × String) : List Char :=
  replaceAll p.1.data p.2.data g

/-- The literal replacement loop over the iterated entry list. -/
def litFold (rep : List (String × String)) (g : List Char) : List Char :=
  rep.foldl litStep g

/-- The regexp replacement loop over the iterated entry list; `rx pat tmpl`
is the abstracted `regexp.MustCompile(pat).ReplaceAll(·, tmpl)`. -/
def regFold (rx : String → String → List Char → List Char)
    (reg : List (String × String)) (g : List Char) : List Char :=
  reg.foldl (fun g p => rx p.1 p.2 g) g

/-- The worker's replacement stage: the whole literal loop, then the whole
regexp loop, each over the iterated order of its Go map. -/
def replaceStage (rx : String → String → List Char → List Char)
    (rep reg : List (String × String)) (g : List Char) : List Char :=
  regFold rx reg (litFold rep g)

/-- `filepath.Join(baseDir, f)` restricted to the shapes the program uses
(no cleaning of separators). -/
def goPathJoin (baseDir f : String) : String :=
  if baseDir = "" then f else baseDir ++ "/" ++ f

/-- The per-spec output file name:
`strings.Replace(s.name, "_stmt", "", 1)` plus the `.html` extension,
joined onto the base directory. -/
def specOutPath (baseDir : String) (s : stmtSpec) : String :=
  goPathJoin baseDir (String.mk (replaceFirst "_stmt".data [] s.name.data) ++ ".html")

/-- Spec-worded file naming (for comparison with `specOutPath`): the display
name with its `_stmt` statement-name suffix stripped. -/
def stripStmtSuffix (n : String) : String :=
  if "_stmt".data.isSuffixOf n.data then
    String.mk (n.data.take (n.data.length - "_stmt".data.length))
  else n

/-- The anchor-opening literal the unlink regexp matches for name `u`:
`<a xlink:href="sql-grammar.html#u" xlink:title="u">`. -/
def litFor (u : String) : List Char :=
  "<a xlink:href=\"sql-grammar.html#".data ++ u.data ++
    "\" xlink:title=\"".data ++ u.data ++ "\">".data

/-- The closing-anchor literal `</a>`. -/
def closeA : List Char := "</a>".data

/-- Go `regexp.ReplaceAllString` for the unlink pattern
`<a xlink:href="sql-grammar.html#u" xlink:title="u">((?s).*?)</a>` with
template `$1`: repeatedly find the leftmost occurrence of the opening
literal, take the shortest middle up to the next `</a>` (lazy `.*?`), and
keep only the middle; scanning resumes after the match.  When the opening
literal occurs but no `</a>` follows it, no match exists anywhere from that
point on and the text is returned unchanged. -/
def unlinkGoF (u : String) : Nat → List Char → List Char
  | 0, s => s
  | _ + 1, [] => []
  | fuel + 1, c :: t =>
    if (litFor u).isPrefixOf (c :: t) then
      match splitAtPat closeA ((c :: t).drop (litFor u).length) with
      | none => c :: t
      | some p => p.1 ++ unlinkGoF u fuel p.2
    else
      c :: unlinkGoF u fuel t

/-- `unlinkGoF` on the empty list. -/
theorem unlinkGoF_nil (u : String) (f : Nat) : unlinkGoF u f [] = [] := by
  cases f <;> rfl

/-- The tail of a successful inner `splitAtPat` in the unlink scan is
shorter than the scanned list. -/
theorem unlink_split_bound (u : String) (c : Char) (t : List Char)
    (p : List Char × List Char)
    (hp : splitAtPat closeA ((c :: t).drop (litFor u).length) = some p) :
    p.2.length ≤ t.length := by
  have hlen := splitAtPat_length closeA _ _ hp
  have h5 : ((c :: t).drop (litFor u).length).length ≤ t.length + 1 := by
    simp only [List.length_drop, List.length_cons]
    omega
  have h6 : closeA.length = 4 := rfl
  omega

/-- `unlinkGoF` does not depend on the fuel once it covers the input. -/
theorem unlinkGoF_congr (u : String) :
    ∀ f1 f2 s, s.length ≤ f1 → s.length ≤ f2 →
      unlinkGoF u f1 s = unlinkGoF u f2 s := by
  intro f1
  induction f1 with
  | zero =>
    intro f2 s h1 h2
    have : s = [] := List.length_eq_zero.mp (Nat.le_zero.mp h1)
    subst this
    rw [unlinkGoF_nil, unlinkGoF_nil]
  | succ a ih =>
    intro f2 s h1 h2
    cases s with
    | nil => rw [unlinkGoF_nil, unlinkGoF_nil]
    | cons c t =>
      cases f2 with
      | zero => simp at h2
      | succ b =>
        simp only [unlinkGoF]
        simp only [List.length_cons] at h1 h2
        split
        · split
          · rfl
          · rename_i p hp
            have hb := unlink_split_bound u c t p hp
            congr 1
            exact ih b p.2 (by omega) (by omega)
        · congr 1
          exact ih b t (by omega) (by omega)

/-- Go `regexp.ReplaceAllString` for the unlink pattern, with fuel
instantiated (see `unlinkGoF`). -/
def unlinkGo (u : String) (s : List Char) : List Char :=
  unlinkGoF u s.length s

/-- `unlinkGo` on the empty list. -/
theorem unlinkGo_nil (u : String) : unlinkGo u [] = [] := rfl

/-- Unfolding equation for `unlinkGo` on a cons cell. -/
theorem unlinkGo_cons (u : String) (c : Char) (t : List Char) :
    unlinkGo u (c :: t) =
      if (litFor u).isPrefixOf (c :: t) then
        match splitAtPat closeA ((c :: t).drop (litFor u).length) with
        | none => c :: t
        | some p => p.1 ++ unlinkGo u p.2
      else
        c :: unlinkGo u t := by
  show unlinkGoF u (t.length + 1) (c :: t) = _
  simp only [unlinkGoF]
  split
  · split
    · rfl
    · rename_i p hp
      have hb := unlink_split_bound u c t p hp
      congr 1
      exact unlinkGoF_congr u t.length p.2.length p.2 (by omega) (by omega)
  · rfl

/-- The unlink loop of the spec worker, over the `unlink` slice in its
declared (slice) order. -/
def unlinkFold (us : List String) (b : List Char) : List Char :=
  us.foldl (fun b u => unlinkGo u b) b

/-- Observable outcome of one worker goroutine.  `fatalMsg` models a
`log.Fatal`/`log.Fatalf` call (which exits the whole process), carrying the
formatted message; `printed` models the `-bnf` print-only path; `wrote`
models `ioutil.WriteFile`. -/
inductive WorkerOutcome where
  | skipped
  | printed (msg : List Char)
  | fatalMsg (msg : List Char)
  | wrote (path : String) (body : List Char)
deriving DecidableEq, Repr

/-- The message of `log.Fatalf("%s: %s\n%s", name, err, g)`. -/
def fatalText (name e : String) (g : List Char) : List Char :=
  (name ++ ": " ++ e ++ "\n").data ++ g

/-- The first `strings.Replace` applied to the svg body:
`<a xlink:href="#` → `<a xlink:href="sql-grammar.html#`. -/
def hrefRewrite (body : List Char) : List Char :=
  replaceAll "<a xlink:href=\"#".data "<a xlink:href=\"sql-grammar.html#".data body

/-- Renderer-and-write tail of the spec worker (after the replacement
stage, `printBNF` false). -/
def specRender (c : Collab) (baseDir : String) (s : stmtSpec) (g2 : List Char) :
    WorkerOutcome :=
  match c.rr s.name g2 with
  | .error e => .fatalMsg (fatalText s.name e g2)
  | .ok rrb =>
    match c.svgTag rrb with
    | .error e => .fatalMsg (s.name.data ++ e.data)
    | .ok body =>
      .wrote (specOutPath baseDir s) (unlinkFold s.unlink (hrefRewrite body))

/-- Spec worker after a successful extraction: replacement stage with the
iterated map orders `rep`/`reg`, then either print (`-bnf`) or render and
write. -/
def specPostExtract (c : Collab) (rx : String → String → List Char → List Char)
    (printBNF : Bool) (baseDir : String) (s : stmtSpec)
    (rep reg : List (String × String)) (g : List Char) : WorkerOutcome :=
  let g2 := replaceStage rx rep reg g
  if printBNF then .printed g2 else specRender c baseDir s g2

/-- One per-spec worker goroutine of `rootCmd.Run`.  `rep` and `reg` are
the orders in which `range` happened to iterate `s.replace` and
`s.regreplace` in this run. -/
def runSpecWorker (c : Collab) (rx : String → String → List Char → List Char)
    (filter : String) (printBNF : Bool) (baseDir : String) (bnf : List Char)
    (rep reg : List (String × String)) (s : stmtSpec) : WorkerOutcome :=
  if filter ≠ "" ∧ filter ≠ s.name then .skipped
  else
    match runParse c bnf s.inline (specRoot s) false s.nosplit s.matchRe s.exclude with
    | .inl e => .fatalMsg e.data
    | .inr (g, some e) => .fatalMsg (fatalText s.name e g)
    | .inr (g, none) => specPostExtract c rx printBNF baseDir s rep reg g

/-- The credit line appended to the overview body. -/
def creditLine : String :=
  "<p>generated by <a href=\"http://www.bottlecaps.de/rr/ui\">Railroad Diagram Generator</a></p>"

/-- The separate top-level `stmt_block` overview worker. -/
def runBlockWorker (c : Collab) (filter : String) (printBNF : Bool)
    (baseDir : String) (bnf : List Char) : WorkerOutcome :=
  if filter ≠ "" ∧ filter ≠ "stmt_block" then .skipped
  else
    match runParse c bnf [] "stmt_block" true true [] [] with
    | .inl e => .fatalMsg e.data
    | .inr (_, some e) => .fatalMsg e.data
    | .inr (g, none) =>
      if printBNF then .printed g
      else
        match c.rr "stmt_block" g with
        | .error e => .fatalMsg e.data
        | .ok rrb =>
          match c.bodyTag rrb with
          | .error e => .fatalMsg e.data
          | .ok body =>
            .wrote (goPathJoin baseDir "grammar.html")
              ("<div>".data ++ (takeBefore "<hr/>".data body ++ creditLine.data)
                ++ "</div>".data)

/-- A scheduled worker: the overview goroutine or a per-spec goroutine
together with the map iteration orders of its run. -/
inductive Job where
  | block
  | spec (s : stmtSpec) (rep reg : List (String × String))
deriving DecidableEq

/-- Run one worker. -/
def runJob (c : Collab) (rx : String → String → List Char → List Char)
    (filter : String) (printBNF : Bool) (baseDir : String) (bnf : List Char) :
    Job → WorkerOutcome
  | .block => runBlockWorker c filter printBNF baseDir bnf
  | .spec s rep reg => runSpecWorker c rx filter printBNF baseDir bnf rep reg s

/-- The name a job's filter check compares against. -/
def jobName : Job → String
  | .block => "stmt_block"
  | .spec s _ _ => s.name

/-- Batch execution of the worker goroutines in schedule order.  Workers
are independent except through `log.Fatal`, which calls `os.Exit` and
terminates the process: a fatal outcome aborts the remaining schedule.
Each worker's only external effect is its single file write (or print), so
interleavings are captured by the order in which workers complete.
Returns the files written and the fatal message, if any. -/
def runBatch (c : Collab) (rx : String → String → List Char → List Char)
    (filter : String) (printBNF : Bool) (baseDir : String) (bnf : List Char) :
    List Job → List (String × List Char) × Option (List Char)
  | [] => ([], none)
  | j :: js =>
    match runJob c rx filter printBNF baseDir bnf j with
    | .fatalMsg m => ([], some m)
    | .wrote p b =>
      let r := runBatch c rx filter printBNF baseDir bnf js
      ((p, b) :: r.1, r.2)
    | _ => runBatch c rx filter printBNF baseDir bnf js

/-- The statically enumerated statement specifications of `rootCmd.Run`,
transcribed from `main.go` in declaration order; map-literal entries are
listed in their declared source order. -/
def specs : List stmtSpec := [
  { name := "add_column", stmt := "alter_table_stmt",
    inline := ["alter_table_cmds", "alter_table_cmd"],
    matchRe := ["\x27ADD\x27 .* column_def \\( \x27,\x27"],
    regreplace := [(" \\( \x27,\x27.*\\)\\*", "")] },
  { name := "alter_table_stmt",
    inline := ["alter_table_cmds", "alter_table_cmd", "column_def",
      "opt_drop_behavior", "alter_column_default", "opt_column", "opt_set_data"],
    nosplit := true },
  { name := "begin_transaction", stmt := "transaction_stmt",
    inline := ["opt_transaction", "opt_transaction_mode_list",
      "transaction_iso_level", "transaction_user_priority", "user_priority"],
    matchRe := ["\x27BEGIN\x27|\x27START\x27"] },
  { name := "column_def" },
  { name := "col_qual_list", stmt := "col_qual_list",
    inline := ["col_qualification", "col_qualification_elem"],
    replace := [("| \x27REFERENCES\x27 qualified_name opt_name_parens", "")] },
  { name := "commit_transaction", stmt := "transaction_stmt",
    inline := ["opt_transaction"],
    matchRe := ["\x27COMMIT\x27|\x27END\x27"] },
  { name := "create_database_stmt", inline := ["opt_encoding_clause"],
    replace := [("\x27SCONST\x27", "encoding")],
    unlink := ["name", "encoding"] },
  { name := "create_index_stmt",
    inline := ["opt_storing", "storing", "opt_unique", "opt_name",
      "index_params", "index_elem", "opt_asc_desc", "name_list"],
    replace := [
      ("\x27INDEX\x27 ( name", "\x27INDEX\x27 ( index_name"),
      ("\x27EXISTS\x27 name", "\x27EXISTS\x27 index_name"),
      ("qualified_name", "table_name"),
      ("\x27,\x27 name", "\x27,\x27 column_name"),
      ("( name (", "( column_name (")],
    unlink := ["index_name", "table_name", "column_name"],
    nosplit := true },
  { name := "create_table_stmt",
    inline := ["opt_table_elem_list", "table_elem_list", "table_elem"] },
  { name := "delete_stmt",
    inline := ["relation_expr_opt_alias", "where_clause", "returning_clause",
      "target_list", "target_elem"] },
  { name := "drop_database", stmt := "drop_stmt",
    matchRe := ["\x27DROP\x27 \x27DATABASE\x27"] },
  { name := "drop_index", stmt := "drop_stmt",
    matchRe := ["\x27DROP\x27 \x27INDEX\x27"],
    inline := ["opt_drop_behavior", "table_name_with_index_list",
      "table_name_with_index"],
    replace := [("qualified_name", "table_name"),
      ("\x27@\x27 name", "\x27@\x27 index_name")],
    unlink := ["table_name", "index_name"] },
  { name := "drop_stmt",
    inline := ["table_name_list", "any_name", "qualified_name_list",
      "qualified_name"] },
  { name := "drop_table", stmt := "drop_stmt",
    matchRe := ["\x27DROP\x27 \x27TABLE\x27"] },
  { name := "explain_stmt", inline := ["explainable_stmt", "explain_option_list"] },
  { name := "family_def", inline := ["opt_name", "name_list"] },
  { name := "grant_stmt",
    inline := ["privileges", "privilege_list", "privilege", "privilege_target",
      "grantee_list", "table_pattern_list", "name_list"],
    replace := [("table_pattern", "table_name"),
      ("\x27DATABASE\x27 ( name ( \x27,\x27 name )* )",
        "\x27DATABASE\x27 ( database_name ( \x27,\x27 database_name )* )"),
      ("\x27TO\x27 ( name ( \x27,\x27 name )* )",
        "\x27TO\x27 ( user_name ( \x27,\x27 user_name )* )")],
    unlink := ["table_name", "database_name", "user_name"],
    nosplit := true },
  { name := "index_def",
    inline := ["opt_storing", "storing", "index_params", "opt_name"] },
  { name := "insert_stmt",
    inline := ["insert_target", "insert_rest", "returning_clause"],
    matchRe := ["\x27INSERT\x27"] },
  { name := "iso_level" },
  { name := "release_savepoint", stmt := "release_stmt",
    inline := ["savepoint_name"] },
  { name := "rename_column", stmt := "rename_stmt",
    matchRe := ["\x27ALTER\x27 \x27TABLE\x27 .* \x27RENAME\x27 opt_column"] },
  { name := "rename_database", stmt := "rename_stmt",
    matchRe := ["\x27ALTER\x27 \x27DATABASE\x27"] },
  { name := "rename_index", stmt := "rename_stmt",
    matchRe := ["\x27ALTER\x27 \x27INDEX\x27"] },
  { name := "rename_table", stmt := "rename_stmt",
    matchRe := ["\x27ALTER\x27 \x27TABLE\x27 .* \x27RENAME\x27 \x27TO\x27"] },
  { name := "revoke_stmt",
    inline := ["privileges", "privilege_list", "privilege", "privilege_target",
      "grantee_list"] },
  { name := "rollback_transaction", stmt := "transaction_stmt",
    inline := ["opt_transaction"],
    matchRe := ["\x27ROLLBACK\x27"] },
  { name := "savepoint_stmt", inline := ["savepoint_name"] },
  { name := "select_stmt",
    inline := ["select_no_parens", "simple_select", "opt_sort_clause",
      "select_limit"],
    nosplit := true },
  { name := "set_time_zone", stmt := "set_stmt",
    inline := ["set_rest", "set_rest_more", "generic_set"],
    matchRe := ["\x27SET\x27 \x27TIME\x27"] },
  { name := "set_database", stmt := "set_stmt",
    inline := ["set_rest", "set_rest_more", "generic_set"],
    matchRe := ["\x27SET\x27 var_name .* var_list"],
    replace := [("var_name", "\x27DATABASE\x27"), ("var_list", "database_name")],
    unlink := ["database_name"] },
  { name := "set_transaction", stmt := "set_stmt",
    inline := ["set_rest", "transaction_mode_list", "transaction_iso_level",
      "transaction_user_priority"],
    replace := [(" | set_rest_more", "")],
    matchRe := ["\x27TRANSACTION\x27"] },
  { name := "show_columns", stmt := "show_stmt",
    matchRe := ["\x27SHOW\x27 \x27COLUMNS\x27"],
    replace := [("var_name", "table_name")], unlink := ["table_name"] },
  { name := "show_constraints", stmt := "show_stmt",
    matchRe := ["\x27SHOW\x27 \x27CONSTRAINTS\x27"],
    replace := [("var_name", "table_name")], unlink := ["table_name"] },
  { name := "show_create_table", stmt := "show_stmt",
    matchRe := ["\x27SHOW\x27 \x27CREATE\x27 \x27TABLE\x27"],
    replace := [("var_name", "table_name")], unlink := ["table_name"] },
  { name := "show_databases", stmt := "show_stmt",
    matchRe := ["\x27SHOW\x27 \x27DATABASES\x27"] },
  { name := "show_grants", stmt := "show_stmt",
    inline := ["on_privilege_target_clause", "privilege_target",
      "for_grantee_clause", "grantee_list", "table_pattern_list", "name_list"],
    matchRe := ["\x27SHOW\x27 \x27GRANTS\x27"],
    replace := [
      ("table_pattern", "table_name"),
      ("\x27DATABASE\x27 name ( \x27,\x27 name )*",
        "\x27DATABASE\x27 database_name ( \x27,\x27 database_name )*"),
      ("\x27FOR\x27 name ( \x27,\x27 name )*",
        "\x27FOR\x27 user_name ( \x27,\x27 user_name )*")],
    unlink := ["table_name", "database_name", "user_name"] },
  { name := "show_index", stmt := "show_stmt",
    matchRe := ["\x27SHOW\x27 \x27INDEX\x27"],
    replace := [("var_name", "table_name")], unlink := ["table_name"] },
  { name := "show_keys", stmt := "show_stmt",
    matchRe := ["\x27SHOW\x27 \x27KEYS\x27"] },
  { name := "show_tables", stmt := "show_stmt",
    matchRe := ["\x27SHOW\x27 \x27TABLES\x27"] },
  { name := "show_timezone", stmt := "show_stmt",
    matchRe := ["\x27SHOW\x27 \x27TIME\x27 \x27ZONE\x27"] },
  { name := "show_transaction", stmt := "show_stmt",
    matchRe := ["\x27SHOW\x27 \x27TRANSACTION\x27"] },
  { name := "table_constraint",
    inline := ["constraint_elem", "opt_storing", "storing"] },
  { name := "truncate_stmt",
    inline := ["opt_table", "relation_expr_list", "relation_expr",
      "opt_drop_behavior"],
    replace := [
      ("\x27ONLY\x27 \x27(\x27 qualified_name \x27)\x27", ""),
      ("\x27ONLY\x27 qualified_name", ""),
      ("qualified_name", "table_name"),
      ("\x27*\x27", ""),
      ("\x27CASCADE\x27", ""),
      ("\x27RESTRICT\x27", "")],
    unlink := ["table_name"] },
  { name := "update_stmt",
    inline := ["relation_expr_opt_alias", "set_clause_list", "set_clause",
      "single_set_clause", "multiple_set_clause", "ctext_row",
      "ctext_expr_list", "ctext_expr", "from_clause", "from_list",
      "where_clause", "returning_clause"] },
  { name := "upsert_stmt", stmt := "insert_stmt",
    inline := ["insert_target", "insert_rest", "returning_clause"],
    matchRe := ["\x27UPSERT\x27"] }
]

/-- The identity regex oracle (used for concrete runs whose specs have no
`regreplace` entries). -/
def rxId : String → String → List Char → List Char := fun _ _ b => b

/-- A collaborator whose extraction always succeeds with fragment `frag`
and whose renderer and tag extractor are the identity. -/
def okCollab (frag : List Char) : Collab :=
  ⟨fun _ _ _ _ _ _ _ => .ok frag none,
   fun _ g => .ok g, fun b => .ok b, fun b => .ok b⟩

/-- Projection of a worker outcome to its written file, if any. -/
def wroteOf : WorkerOutcome → Option (String × List Char)
  | .wrote p b => some (p, b)
  | _ => none

/-- Projection of a worker outcome to its `log.Fatal` message, if any. -/
def msgOf : WorkerOutcome → Option (List Char)
  | .fatalMsg m => some m
  | _ => none

/-- Whether a worker outcome aborts the process. -/
def isFatal (o : WorkerOutcome) : Bool :=
  (msgOf o).isSome

/-- Re-running `specRoot` after the defaulting assignment is stable. -/
theorem specRoot_idem (s : stmtSpec) :
    specRoot { s with stmt := specRoot s } = specRoot s := by
  unfold specRoot
  by_cases h : s.stmt = ""
  · simp [h]
  · simp [h]

/-- Claim C1 (amended): a failing spec terminates the whole process via
`log.Fatal`; exactly the workers that completed before the failure have
their outputs written, and the batch result is the fatal message of the
first failing worker in schedule order. -/
theorem c1_fatal_abort_prefix (c : Collab)
    (rx : String → String → List Char → List Char) (filter : String)
    (printBNF : Bool) (baseDir : String) (bnf : List Char) (js : List Job) :
    runBatch c rx filter printBNF baseDir bnf js =
      (((js.map (runJob c rx filter printBNF baseDir bnf)).takeWhile
          (fun o => !(isFatal o))).filterMap wroteOf,
       ((js.map (runJob c rx filter printBNF baseDir bnf)).dropWhile
          (fun o => !(isFatal o))).head?.bind msgOf) := by
  induction js with
  | nil => rfl
  | cons j js ih =>
    cases h : runJob c rx filter printBNF baseDir bnf j with
    | skipped =>
      simp [runBatch, h, ih, List.takeWhile, List.dropWhile, isFatal, msgOf, wroteOf]
    | printed m =>
      simp [runBatch, h, ih, List.takeWhile, List.dropWhile, isFatal, msgOf, wroteOf]
    | fatalMsg m =>
      simp [runBatch, h, List.takeWhile, List.dropWhile, isFatal, msgOf]
    | wrote p b =>
      simp [runBatch, h, ih, List.takeWhile, List.dropWhile, isFatal, msgOf, wroteOf]

/-- The collaborator of the C1 counterexample: extraction succeeds for the
root `good_stmt` and reports an unknown-production error for any other
root.  Modelled from the spec: a spec naming a root absent from the
grammar fails with `UnknownProductionError` (spec section 7) returned by
`ExtractProduction`. -/
def cIso : Collab :=
  ⟨fun _ _ top _ _ _ _ =>
      if top = "good_stmt" then .ok "G".data none
      else .ok [] (some "unknown production"),
   fun _ g => .ok g, fun b => .ok b, fun b => .ok b⟩

/-- A spec with an unknown root production. -/
def badSpec : stmtSpec := { name := "bad_stmt" }

/-- A spec with a valid root production. -/
def goodSpec : stmtSpec := { name := "good_stmt" }

/-- Claim C1 is false on the code: a run in which `bad_stmt` (unknown
root) is scheduled before the valid sibling `good_stmt` writes no file at
all — `log.Fatalf` exits the process and the sibling's output is lost —
although `good_stmt` alone completes and writes its file. -/
theorem c1_counterexample :
    (runBatch cIso rxId "" false "out" []
        [.spec badSpec [] [], .spec goodSpec [] []]).1 = [] ∧
    (runBatch cIso rxId "" false "out" [] [.spec goodSpec [] []]).1 =
      [("out/good.html", "G".data)] := by
  constructor
  · rfl
  · rfl

/-- Claim C6: with a non-empty filter, every worker (the `stmt_block`
overview worker included) whose name differs from the filter returns
before doing anything — its outcome is `skipped` for every collaborator
and regex oracle, so no parsing, extraction, rendering or file write
happens — while a worker whose name equals the filter behaves exactly as
in an unfiltered run. -/
theorem c6_filter_restricts_to_named_spec (c : Collab)
    (rx : String → String → List Char → List Char) (filter : String)
    (printBNF : Bool) (baseDir : String) (bnf : List Char) (j : Job)
    (hf : filter ≠ "") :
    (jobName j ≠ filter → runJob c rx filter printBNF baseDir bnf j = .skipped) ∧
    (jobName j = filter →
      runJob c rx filter printBNF baseDir bnf j =
        runJob c rx "" printBNF baseDir bnf j) := by
  constructor
  · intro hne
    cases j with
    | block =>
      have h2 : filter ≠ "stmt_block" := fun h => hne (by simp [jobName, h])
      simp [runJob, runBlockWorker, hf, h2]
    | spec s rep reg =>
      have h2 : filter ≠ s.name := fun h => hne (by simp [jobName, h])
      simp [runJob, runSpecWorker, hf, h2]
  · intro heq
    cases j with
    | block =>
      simp only [jobName] at heq
      subst heq
      simp [runJob, runBlockWorker]
    | spec s rep reg =>
      simp only [jobName] at heq
      subst heq
      simp [runJob, runSpecWorker]

/-- Witness for C6 at concrete inputs: filter `good_stmt` skips the
differently-named worker and leaves the matching worker's run unchanged. -/
theorem c6_witness :
    ("good_stmt" : String) ≠ "" ∧
    runJob cIso rxId "good_stmt" false "out" [] (.spec badSpec [] []) = .skipped ∧
    runJob cIso rxId "good_stmt" false "out" [] (.spec goodSpec [] []) =
      runJob cIso rxId "" false "out" [] (.spec goodSpec [] []) := by
  refine ⟨by decide, ?_, ?_⟩
  · exact (c6_filter_restricts_to_named_spec cIso rxId "good_stmt" false "out" []
      (.spec badSpec [] []) (by decide)).1 (by decide)
  · exact (c6_filter_restricts_to_named_spec cIso rxId "good_stmt" false "out" []
      (.spec goodSpec [] []) (by decide)).2 (by decide)

/-- Claim C7: a spec with an empty `stmt` field uses its display name as
the root production, a spec with a non-empty `stmt` uses that field, and
running a worker is indistinguishable from running it with the defaulted
root written explicitly into the spec. -/
theorem c7_root_defaults_to_name (c : Collab)
    (rx : String → String → List Char → List Char) (filter : String)
    (printBNF : Bool) (baseDir : String) (bnf : List Char)
    (rep reg : List (String × String)) (s : stmtSpec) :
    (s.stmt = "" → specRoot s = s.name) ∧
    (s.stmt ≠ "" → specRoot s = s.stmt) ∧
    runSpecWorker c rx filter printBNF baseDir bnf rep reg s =
      runSpecWorker c rx filter printBNF baseDir bnf rep reg
        { s with stmt := specRoot s } := by
  refine ⟨fun h => by simp [specRoot, h], fun h => by simp [specRoot, h], ?_⟩
  unfold runSpecWorker
  rw [specRoot_idem]
  rfl

/-- Witness for C7 at concrete specs: `column_def` (empty `stmt`) roots at
its own name, `drop_table` roots at its `stmt` field `drop_stmt`. -/
theorem c7_witness :
    specRoot { name := "column_def" } = "column_def" ∧
    specRoot { name := "drop_table", stmt := "drop_stmt" } = "drop_stmt" ∧
    runSpecWorker (okCollab "G".data) rxId "" false "out" [] [] []
        { name := "column_def" } =
      runSpecWorker (okCollab "G".data) rxId "" false "out" [] [] []
        { name := "column_def", stmt := specRoot { name := "column_def" } } := by
  refine ⟨?_, ?_, ?_⟩
  · exact (c7_root_defaults_to_name (okCollab "G".data) rxId "" false "out" [] [] []
      { name := "column_def" }).1 rfl
  · exact ((c7_root_defaults_to_name (okCollab "G".data) rxId "" false "out" [] [] []
      { name := "drop_table", stmt := "drop_stmt" }).2.1 (by decide))
  · exact (c7_root_defaults_to_name (okCollab "G".data) rxId "" false "out" [] [] []
      { name := "column_def" }).2.2

/-- Claim C8: for every spec of the program's list, the output path is the
base directory joined with the display name with its `_stmt` suffix
stripped plus `.html` (the code's first-occurrence `strings.Replace`
agrees with the spec's suffix-strip on all 46 declared names), and a
worker that writes does write to exactly that path. -/
theorem c8_output_file_naming (baseDir : String) (s : stmtSpec)
    (hs : s ∈ specs) :
    specOutPath baseDir s = goPathJoin baseDir (stripStmtSuffix s.name ++ ".html") ∧
    ∀ (c : Collab) (rx : String → String → List Char → List Char)
      (filter : String) (printBNF : Bool) (bnf : List Char)
      (rep reg : List (String × String)) (p : String) (b : List Char),
      runSpecWorker c rx filter printBNF baseDir bnf rep reg s = .wrote p b →
      p = specOutPath baseDir s := by
  constructor
  · have hname : ∀ t ∈ specs,
        String.mk (replaceFirst "_stmt".data [] t.name.data) = stripStmtSuffix t.name := by
      decide
    unfold specOutPath
    rw [hname s hs]
  · intro c rx filter printBNF bnf rep reg p b h
    unfold runSpecWorker at h
    split at h
    · simp at h
    · split at h
      · simp at h
      · simp at h
      · simp only [specPostExtract] at h
        split at h
        · simp at h
        · unfold specRender at h
          split at h
          · simp at h
          · split at h
            · simp at h
            · injection h with h1 h2
              exact h1.symm

/-- Witness for C8 at a concrete spec: `truncate_stmt` (index 43 of the
spec list) produces the path for `truncate.html`, its `_stmt` suffix
stripped. -/
theorem c8_witness :
    specs.get ⟨43, by decide⟩ ∈ specs ∧
    specOutPath "out" (specs.get ⟨43, by decide⟩) =
      goPathJoin "out"
        (stripStmtSuffix (specs.get ⟨43, by decide⟩).name ++ ".html") := by
  refine ⟨List.get_mem specs 43 (by decide), ?_⟩
  exact (c8_output_file_naming "out" _ (List.get_mem specs 43 (by decide))).1

/-- Claim C10: when the extraction step reports an error, `runParse` still
applies the `IDENT`/`_LA` rewrites to the bytes extraction produced and
returns them paired with the error; the calling worker's `log.Fatalf`
message then contains the rewritten fragment, so it is available for
diagnostics. -/
theorem c10_error_keeps_fragment (c : Collab)
    (rx : String → String → List Char → List Char)
    (printBNF : Bool) (baseDir : String) (bnf : List Char)
    (rep reg : List (String × String)) (s : stmtSpec) (b : List Char) (e : String)
    (hx : c.ext bnf s.inline (specRoot s) false s.nosplit s.matchRe s.exclude =
      .ok b (some e)) :
    runParse c bnf s.inline (specRoot s) false s.nosplit s.matchRe s.exclude =
      .inr (postProcess b, some e) ∧
    runSpecWorker c rx "" printBNF baseDir bnf rep reg s =
      .fatalMsg (fatalText s.name e (postProcess b)) ∧
    postProcess b <:+: fatalText s.name e (postProcess b) := by
  have h1 : runParse c bnf s.inline (specRoot s) false s.nosplit s.matchRe s.exclude =
      .inr (postProcess b, some e) := by
    unfold runParse
    rw [hx]
  refine ⟨h1, ?_, ?_⟩
  · unfold runSpecWorker
    rw [if_neg (by simp), h1]
  · exact (List.suffix_append _ _).isInfix

/-- Witness for C10: a concrete collaborator whose extraction fails with a
partial fragment containing `IDENT` and `_LA`; the worker's fatal message
contains the rewritten fragment. -/
def cErr : Collab :=
  ⟨fun _ _ _ _ _ _ _ => .ok "IDENT a_LA".data (some "empty extraction"),
   fun _ g => .ok g, fun b => .ok b, fun b => .ok b⟩

/-- Witness theorem for C10 at concrete inputs. -/
theorem c10_witness :
    runParse cErr ("grammar".data) badSpec.inline (specRoot badSpec) false
        badSpec.nosplit badSpec.matchRe badSpec.exclude =
      .inr (postProcess "IDENT a_LA".data, some "empty extraction") ∧
    runSpecWorker cErr rxId "" false "out" ("grammar".data) [] [] badSpec =
      .fatalMsg (fatalText "bad_stmt" "empty extraction"
        (postProcess "IDENT a_LA".data)) := by
  have h := c10_error_keeps_fragment cErr rxId false "out" ("grammar".data) [] []
    badSpec "IDENT a_LA".data "empty extraction" rfl
  exact ⟨h.1, h.2.1⟩

/-- The `truncate_stmt` spec (index 43 of the program's spec list). -/
def truncSpec : stmtSpec := specs.get ⟨43, by decide⟩

/-- One possible Go map iteration order of `truncate_stmt`'s `replace`
map: the `qualified_name` → `table_name` entry first. -/
def permRep : List (String × String) :=
  [("qualified_name", "table_name"),
   ("\x27ONLY\x27 \x27(\x27 qualified_name \x27)\x27", ""),
   ("\x27ONLY\x27 qualified_name", ""),
   ("\x27*\x27", ""),
   ("\x27CASCADE\x27", ""),
   ("\x27RESTRICT\x27", "")]

/-- A fragment on which `truncate_stmt`'s replacements interact. -/
def fragCE : List Char := " \x27ONLY\x27 qualified_name x".data

/-- A collaborator whose extraction yields `fragCE`. -/
def cFrag : Collab := okCollab fragCE

/-- Claim C2 is false on the code: the literal replacements are a Go map
iterated by `range` in unspecified order, and for `truncate_stmt`'s
declared entries there is an iteration order (a permutation of the
declared entry list) whose result differs from the declared-order result,
so the output is not that of applying the replacements in listed order. -/
theorem c2_counterexample :
    permRep.Perm truncSpec.replace ∧
    litFold permRep fragCE ≠ litFold truncSpec.replace fragCE := by
  constructor
  · decide
  · decide

/-- Claim C2 (amended): all literal replacements are applied (each
observing the effect of previously applied ones) before any regex
replacement, but within each class the application order is Go's
unspecified map iteration order; the listed order is only guaranteed when
the entries pairwise commute. -/
theorem c2_literal_then_regex_phases
    (rx : String → String → List Char → List Char)
    (dRep dReg rep reg : List (String × String)) (b : List Char)
    (hrep : rep.Perm dRep) (hreg : reg.Perm dReg)
    (hcl : ∀ p ∈ rep, ∀ q ∈ rep, ∀ x, litStep (litStep x p) q = litStep (litStep x q) p)
    (hcr : ∀ p ∈ reg, ∀ q ∈ reg, ∀ x,
      rx q.1 q.2 (rx p.1 p.2 x) = rx p.1 p.2 (rx q.1 q.2 x)) :
    replaceStage rx rep reg b = regFold rx dReg (litFold dRep b) := by
  unfold replaceStage
  have h1 : litFold rep b = litFold dRep b := by
    unfold litFold
    exact hrep.foldl_eq' (fun x hx y hy z => hcl x hx y hy z) b
  have h2 : regFold rx reg (litFold dRep b) = regFold rx dReg (litFold dRep b) := by
    unfold regFold
    exact hreg.foldl_eq' (fun x hx y hy z => hcr x hx y hy z) _
  rw [h1, h2]

/-- Witness for the amended C2 at concrete inputs (a singleton literal map
commutes with itself, empty regex map). -/
theorem c2_witness :
    replaceStage rxId [("a", "b")] [] "a".data =
      regFold rxId [] (litFold [("a", "b")] "a".data) := by
  apply c2_literal_then_regex_phases rxId [("a", "b")] [] [("a", "b")] [] "a".data
    (List.Perm.refl _) (List.Perm.refl _)
  · intro p hp q hq x
    rw [List.mem_singleton.mp hp, List.mem_singleton.mp hq]
  · intro p hp
    simp at hp

/-- Claim C3 is false on the code: two runs of the pipeline on the
identical (grammar, spec) pair — here `truncate_stmt` against the same
grammar bytes and the same extracted fragment — produce different bytes
when Go happens to iterate the spec's `replace` map in different orders,
so the output is not a function of (grammar, spec) alone and reruns need
not be byte-identical. -/
theorem c3_counterexample :
    permRep.Perm truncSpec.replace ∧
    runSpecWorker cFrag rxId "" true "out" [] permRep [] truncSpec ≠
      runSpecWorker cFrag rxId "" true "out" [] truncSpec.replace [] truncSpec := by
  constructor
  · decide
  · decide

/-- Claim C3 (amended): the extraction and `IDENT`/`_LA` fixup are
deterministic functions of their inputs, and a whole spec run is
determined by (grammar bytes, spec, map iteration orders); two runs agree
whenever their iteration orders are permutations of each other with
pairwise-commuting entries — in particular always when each replacement
map has at most one entry. -/
theorem c3_deterministic_modulo_map_order (c : Collab)
    (rx : String → String → List Char → List Char) (filter : String)
    (printBNF : Bool) (baseDir : String) (bnf : List Char)
    (rep1 reg1 rep2 reg2 : List (String × String)) (s : stmtSpec)
    (h1 : rep1.Perm rep2) (h2 : reg1.Perm reg2)
    (hcl : ∀ p ∈ rep1, ∀ q ∈ rep1, ∀ x, litStep (litStep x p) q = litStep (litStep x q) p)
    (hcr : ∀ p ∈ reg1, ∀ q ∈ reg1, ∀ x,
      rx q.1 q.2 (rx p.1 p.2 x) = rx p.1 p.2 (rx q.1 q.2 x)) :
    runSpecWorker c rx filter printBNF baseDir bnf rep1 reg1 s =
      runSpecWorker c rx filter printBNF baseDir bnf rep2 reg2 s := by
  have key : ∀ g, replaceStage rx rep1 reg1 g = replaceStage rx rep2 reg2 g := by
    intro g
    unfold replaceStage litFold regFold
    rw [h1.foldl_eq' (fun x hx y hy z => hcl x hx y hy z) g,
      h2.foldl_eq' (fun x hx y hy z => hcr x hx y hy z)]
  unfold runSpecWorker
  split
  · rfl
  · split
    · rfl
    · rfl
    · simp only [specPostExtract]
      rw [key]

/-- Witness for the amended C3 at concrete inputs. -/
theorem c3_witness :
    runSpecWorker cFrag rxId "" true "out" [] [("a", "b")] [] truncSpec =
      runSpecWorker cFrag rxId "" true "out" [] [("a", "b")] [] truncSpec := by
  apply c3_deterministic_modulo_map_order cFrag rxId "" true "out" []
    [("a", "b")] [] [("a", "b")] [] truncSpec (List.Perm.refl _) (List.Perm.refl _)
  · intro p hp q hq x
    rw [List.mem_singleton.mp hp, List.mem_singleton.mp hq]
  · intro p hp
    simp at hp

/-- A job scheduled after an all-successful prefix contributes its written
file to the batch output, whatever the surrounding schedule is. -/
theorem runBatch_mem_of_prefix_ok (c : Collab)
    (rx : String → String → List Char → List Char) (filter : String)
    (printBNF : Bool) (baseDir : String) (bnf : List Char)
    (j : Job) (p : String) (b : List Char)
    (hj : runJob c rx filter printBNF baseDir bnf j = .wrote p b) :
    ∀ l1 l2 : List Job,
      (∀ j0 ∈ l1, isFatal (runJob c rx filter printBNF baseDir bnf j0) = false) →
      (p, b) ∈ (runBatch c rx filter printBNF baseDir bnf (l1 ++ j :: l2)).1 := by
  intro l1
  induction l1 with
  | nil =>
    intro l2 hpre
    simp only [List.nil_append]
    unfold runBatch
    rw [hj]
    exact List.mem_cons_self _ _
  | cons jj l1 ih =>
    intro l2 hpre
    simp only [List.cons_append]
    unfold runBatch
    cases h : runJob c rx filter printBNF baseDir bnf jj with
    | fatalMsg m =>
      have := hpre jj (List.mem_cons_self _ _)
      rw [h] at this
      simp [isFatal, msgOf] at this
    | wrote q d =>
      exact List.mem_cons_of_mem _
        (ih l2 (fun j0 hj0 => hpre j0 (List.mem_cons_of_mem _ hj0)))
    | skipped =>
      exact ih l2 (fun j0 hj0 => hpre j0 (List.mem_cons_of_mem _ hj0))
    | printed m =>
      exact ih l2 (fun j0 hj0 => hpre j0 (List.mem_cons_of_mem _ hj0))

/-- Claim C5 is false on the code as stated: with the same grammar bytes
and the same spec (`truncate_stmt`), the batch can write different file
contents in two runs, because the spec's own output also depends on the
unspecified iteration order of its `replace` map — it is not a function of
the base grammar bytes and the spec's fields alone. -/
theorem c5_counterexample :
    permRep.Perm truncSpec.replace ∧
    (runBatch cFrag rxId "" false "out" [] [.spec truncSpec permRep []]).1 ≠
      (runBatch cFrag rxId "" false "out" []
        [.spec truncSpec truncSpec.replace []]).1 := by
  constructor
  · decide
  · decide

/-- Claim C5 (amended): there is no cross-talk between workers — a spec
job's written (path, contents) pair is computed by `runJob` from the
shared grammar bytes and the job alone, and is contributed unchanged to
the batch output whichever sibling jobs surround it, as long as no
earlier-scheduled sibling aborts the process; only the iteration order of
the spec's own replacement maps is an additional input. -/
theorem c5_no_cross_talk (c : Collab)
    (rx : String → String → List Char → List Char) (filter : String)
    (printBNF : Bool) (baseDir : String) (bnf : List Char)
    (j : Job) (p : String) (b : List Char)
    (l1 l2 l3 l4 : List Job)
    (hj : runJob c rx filter printBNF baseDir bnf j = .wrote p b)
    (h1 : ∀ j0 ∈ l1, isFatal (runJob c rx filter printBNF baseDir bnf j0) = false)
    (h3 : ∀ j0 ∈ l3, isFatal (runJob c rx filter printBNF baseDir bnf j0) = false) :
    (p, b) ∈ (runBatch c rx filter printBNF baseDir bnf (l1 ++ j :: l2)).1 ∧
    (p, b) ∈ (runBatch c rx filter printBNF baseDir bnf (l3 ++ j :: l4)).1 := by
  exact ⟨runBatch_mem_of_prefix_ok c rx filter printBNF baseDir bnf j p b hj l1 l2 h1,
    runBatch_mem_of_prefix_ok c rx filter printBNF baseDir bnf j p b hj l3 l4 h3⟩

/-- Witness for the amended C5: `good_stmt`'s (path, contents) pair
appears in the output both when it runs alone before a failing sibling
and when another successful worker precedes it. -/
theorem c5_witness :
    ("out/good.html", "G".data) ∈
      (runBatch cIso rxId "" false "out" []
        ([] ++ (Job.spec goodSpec [] []) :: [Job.spec badSpec [] []])).1 ∧
    ("out/good.html", "G".data) ∈
      (runBatch cIso rxId "" false "out" []
        ([Job.spec goodSpec [] []] ++ (Job.spec goodSpec [] []) :: [])).1 := by
  exact c5_no_cross_talk cIso rxId "" false "out" [] (Job.spec goodSpec [] [])
    "out/good.html" "G".data [] [Job.spec badSpec [] []]
    [Job.spec goodSpec [] []] [] (by decide)
    (by intro j0 hj0; simp at hj0)
    (by intro j0 hj0; rw [List.mem_singleton.mp hj0]; decide)

/-- If a pattern `w` whose characters do not occur in the replacement text
is a prefix of a `replaceAll` result, it was already a prefix of the
input (the replacement is non-empty, so deletions cannot splice). -/
theorem replaceAll_prefix_transfer (old rep : List Char) (hrep : rep ≠ []) :
    ∀ s w, (∀ ch ∈ w, ch ∉ rep) → w <+: replaceAll old rep s → w <+: s := by
  have main : ∀ n s w, s.length ≤ n → (∀ ch ∈ w, ch ∉ rep) →
      w <+: replaceAll old rep s → w <+: s := by
    intro n
    induction n with
    | zero =>
      intro s w hs hw h
      have : s = [] := List.length_eq_zero.mp (Nat.le_zero.mp hs)
      subst this
      rwa [replaceAll_nil] at h
    | succ a ih =>
      intro s w hs hw h
      cases s with
      | nil => rwa [replaceAll_nil] at h
      | cons c t =>
        rw [replaceAll_cons] at h
        by_cases hc : old ≠ [] ∧ old.isPrefixOf (c :: t)
        · rw [if_pos hc] at h
          cases w with
          | nil => exact List.nil_prefix
          | cons d w2 =>
            cases rep with
            | nil => exact absurd rfl hrep
            | cons r rs =>
              obtain ⟨k, hk⟩ := h
              rw [List.cons_append, List.cons_append] at hk
              injection hk with h1 _
              exact absurd (List.mem_cons_self r rs)
                (h1 ▸ hw d (List.mem_cons_self d w2))
        · rw [if_neg hc] at h
          cases w with
          | nil => exact List.nil_prefix
          | cons d w2 =>
            obtain ⟨k, hk⟩ := h
            rw [List.cons_append] at hk
            injection hk with h1 h2
            have hw2 : w2 <+: t := by
              apply ih t w2 (by simp only [List.length_cons] at hs; omega)
                (fun ch hch => hw ch (List.mem_cons_of_mem d hch))
              exact ⟨k, h2⟩
            rw [h1]
            exact List.cons_prefix_cons.mpr ⟨rfl, hw2⟩
  exact fun s w => main s.length s w (Nat.le_refl _)

/-- A non-empty pattern whose characters do not occur in `rep` and that is
an infix of `rep ++ x` is an infix of `x`. -/
theorem infix_append_right_of_disjoint (rep : List Char) :
    ∀ w x : List Char, w ≠ [] → (∀ ch ∈ w, ch ∉ rep) →
      w <:+: rep ++ x → w <:+: x := by
  intro w
  induction rep with
  | nil =>
    intro x _ _ h
    simpa using h
  | cons r rs ih =>
    intro x hw hdis h
    rw [List.cons_append, List.infix_cons_iff] at h
    cases h with
    | inl hpre =>
      cases w with
      | nil => exact absurd rfl hw
      | cons d w2 =>
        have h1 : d = r := (List.cons_prefix_cons.mp hpre).1
        exact absurd (List.mem_cons_self r rs)
          (h1 ▸ hdis d (List.mem_cons_self d w2))
    | inr hinf =>
      exact ih x hw (fun ch hch => fun hmem =>
        hdis ch hch (List.mem_cons_of_mem r hmem)) hinf

/-- After replacing every occurrence of `old` by a non-empty replacement
sharing no character with `old`, the result contains no occurrence of
`old`. -/
theorem replaceAll_no_occurrence (old rep : List Char) (hold : old ≠ [])
    (hrep : rep ≠ []) (hdisj : ∀ ch ∈ old, ch ∉ rep) :
    ∀ s, ¬ old <:+: replaceAll old rep s := by
  have main : ∀ n s, s.length ≤ n → ¬ old <:+: replaceAll old rep s := by
    intro n
    induction n with
    | zero =>
      intro s hs h
      have : s = [] := List.length_eq_zero.mp (Nat.le_zero.mp hs)
      subst this
      rw [replaceAll_nil] at h
      exact hold (List.infix_nil.mp h)
    | succ a ih =>
      intro s hs h
      cases s with
      | nil =>
        rw [replaceAll_nil] at h
        exact hold (List.infix_nil.mp h)
      | cons c t =>
        rw [replaceAll_cons] at h
        by_cases hc : old ≠ [] ∧ old.isPrefixOf (c :: t)
        · rw [if_pos hc] at h
          have h2 := infix_append_right_of_disjoint rep old _ hold hdisj h
          have hlen : ((c :: t).drop old.length).length ≤ a := by
            have hol : 0 < old.length := List.length_pos.mpr hold
            simp only [List.length_drop, List.length_cons]
            simp only [List.length_cons] at hs
            omega
          exact ih _ hlen h2
        · rw [if_neg hc] at h
          rw [List.infix_cons_iff] at h
          cases h with
          | inl hpre =>
            have hpre2 : old <+: replaceAll old rep (c :: t) := by
              rw [replaceAll_cons, if_neg hc]
              exact hpre
            have := replaceAll_prefix_transfer old rep hrep (c :: t) old
              hdisj hpre2
            exact hc ⟨hold, List.isPrefixOf_iff_prefix.mpr this⟩
          | inr hinf =>
            exact ih t (by simp only [List.length_cons] at hs; omega) hinf
  exact fun s => main s.length s (Nat.le_refl _)

/-- An occurrence of a pattern `w` whose characters do not occur in the
non-empty replacement text, found after `replaceAll`, was already present
in the input. -/
theorem replaceAll_infix_transfer (old rep : List Char) (hrep : rep ≠ []) :
    ∀ s w, (∀ ch ∈ w, ch ∉ rep) → w <:+: replaceAll old rep s → w <:+: s := by
  have main : ∀ n s w, s.length ≤ n → (∀ ch ∈ w, ch ∉ rep) →
      w <:+: replaceAll old rep s → w <:+: s := by
    intro n
    induction n with
    | zero =>
      intro s w hs hw h
      have : s = [] := List.length_eq_zero.mp (Nat.le_zero.mp hs)
      subst this
      rwa [replaceAll_nil] at h
    | succ a ih =>
      intro s w hs hw h
      cases s with
      | nil => rwa [replaceAll_nil] at h
      | cons c t =>
        rw [replaceAll_cons] at h
        by_cases hc : old ≠ [] ∧ old.isPrefixOf (c :: t)
        · rw [if_pos hc] at h
          by_cases hwnil : w = []
          · subst hwnil
            exact List.nil_infix
          · have h2 := infix_append_right_of_disjoint rep w _ hwnil hw h
            have hlen : ((c :: t).drop old.length).length ≤ a := by
              have hol : 0 < old.length := List.length_pos.mpr hc.1
              simp only [List.length_drop, List.length_cons]
              simp only [List.length_cons] at hs
              omega
            have h3 := ih _ w hlen hw h2
            exact h3.trans (List.drop_suffix _ _).isInfix
        · rw [if_neg hc] at h
          rw [List.infix_cons_iff] at h
          cases h with
          | inl hpre =>
            have hpre2 : w <+: replaceAll old rep (c :: t) := by
              rw [replaceAll_cons, if_neg hc]
              exact hpre
            exact (replaceAll_prefix_transfer old rep hrep (c :: t) w
              hw hpre2).isInfix
          | inr hinf =>
            exact List.infix_cons
              (ih t w (by simp only [List.length_cons] at hs; omega) hw hinf)
  exact fun s w => main s.length s w (Nat.le_refl _)

/-- `replaceAll` is the identity when the pattern does not occur. -/
theorem replaceAll_of_not_infix (old rep : List Char) :
    ∀ s, ¬ old <:+: s → replaceAll old rep s = s := by
  intro s
  induction s with
  | nil => intro _; exact replaceAll_nil old rep
  | cons c t ih =>
    intro h
    rw [replaceAll_cons]
    rw [if_neg, ih (fun hinf => h (List.infix_cons hinf))]
    intro hc
    exact h (List.isPrefixOf_iff_prefix.mp hc.2).isInfix

/-- Claim C4 (amended): `runParse` rewrites the fragment by replacing all
`IDENT` occurrences with `identifier` — after which no `IDENT` occurrence
remains — and then deleting all `_LA` occurrences; the deletion can splice
surrounding bytes into new `IDENT` or `_LA` occurrences, so the returned
bytes are guaranteed to contain neither substring only when the fragment
contains no `_LA` (and more generally whenever no splice arises). -/
theorem c4_ident_la_rewrites (b : List Char) :
    postProcess b =
      replaceAll "_LA".data [] (replaceAll "IDENT".data "identifier".data b) ∧
    ¬ "IDENT".data <:+: replaceAll "IDENT".data "identifier".data b ∧
    (¬ "_LA".data <:+: b →
      postProcess b = replaceAll "IDENT".data "identifier".data b ∧
      ¬ "IDENT".data <:+: postProcess b ∧
      ¬ "_LA".data <:+: postProcess b) := by
  have hnoid : ¬ "IDENT".data <:+: replaceAll "IDENT".data "identifier".data b :=
    replaceAll_no_occurrence "IDENT".data "identifier".data (by decide)
      (by decide) (by decide) b
  refine ⟨rfl, hnoid, ?_⟩
  intro hla
  have h1 : ¬ "_LA".data <:+: replaceAll "IDENT".data "identifier".data b := by
    intro h
    exact hla (replaceAll_infix_transfer "IDENT".data "identifier".data
      (by decide) b "_LA".data (by decide) h)
  have h2 : postProcess b = replaceAll "IDENT".data "identifier".data b := by
    unfold postProcess
    exact replaceAll_of_not_infix "_LA".data [] _ h1
  refine ⟨h2, ?_, ?_⟩
  · rw [h2]; exact hnoid
  · rw [h2]; exact h1

/-- Claim C4 is false on the code as stated: the `_LA` deletion can splice
bytes into new occurrences, e.g. the fragment `IDE_LANT` becomes `IDENT`
(which contains `IDENT`) and `_L_LAA` becomes `_LA`. -/
theorem c4_counterexample :
    "IDENT".data <:+: postProcess "IDE_LANT".data ∧
    "_LA".data <:+: postProcess "_L_LAA".data := by
  constructor
  · decide
  · decide

/-- Witness for the amended C4 at a concrete fragment without `_LA`. -/
theorem c4_witness :
    ¬ "_LA".data <:+: "SHOW IDENT x".data ∧
    postProcess "SHOW IDENT x".data =
      replaceAll "IDENT".data "identifier".data "SHOW IDENT x".data ∧
    ¬ "IDENT".data <:+: postProcess "SHOW IDENT x".data ∧
    ¬ "_LA".data <:+: postProcess "SHOW IDENT x".data := by
  have h := (c4_ident_la_rewrites "SHOW IDENT x".data).2.2 (by decide)
  exact ⟨by decide, h.1, h.2.1, h.2.2⟩

/-- The anchor-opening literal is non-empty. -/
theorem litFor_ne_nil (u : String) : litFor u ≠ [] := by
  unfold litFor
  exact List.append_ne_nil_of_right_ne_nil _ (by decide)

/-- A chunk is `clean` for a pattern when no non-empty suffix of the chunk
starts the pattern or is started by it: the pattern neither occurs in the
chunk nor can an occurrence be spliced across the chunk's right edge. -/
def clean (pat t : List Char) : Prop :=
  ∀ q ∈ t.tails, q = [] ∨ (¬ pat <+: q ∧ ¬ q <+: pat)

instance cleanDec (pat t : List Char) : Decidable (clean pat t) :=
  inferInstanceAs (Decidable (∀ q ∈ t.tails, q = [] ∨ (¬ pat <+: q ∧ ¬ q <+: pat)))

/-- Unpack `clean` at a non-empty suffix. -/
theorem clean_spec (pat t : List Char) (hc : clean pat t) (q : List Char)
    (hq : q <:+ t) (hne : q ≠ []) : ¬ pat <+: q ∧ ¬ q <+: pat :=
  (hc q ((List.mem_tails q t).mpr hq)).resolve_left hne

/-- `clean` passes to the tail. -/
theorem clean_tail (pat : List Char) (c : Char) (t : List Char)
    (hc : clean pat (c :: t)) : clean pat t := by
  intro q hq
  exact hc q ((List.mem_tails q (c :: t)).mpr
    (((List.mem_tails q t).mp hq).trans (List.suffix_cons c t)))

/-- No pattern occurrence can start inside a clean chunk, whatever
follows it. -/
theorem clean_no_prefix_append (pat t r q : List Char) (hc : clean pat t)
    (hq : q <:+ t) (hne : q ≠ []) : ¬ pat <+: q ++ r := by
  intro h
  rcases List.prefix_or_prefix_of_prefix h (List.prefix_append q r) with h1 | h1
  · exact (clean_spec pat t hc q hq hne).1 h1
  · exact (clean_spec pat t hc q hq hne).2 h1

/-- The unlink scan passes over a clean chunk unchanged. -/
theorem unlinkGo_append_clean (u : String) (t r : List Char)
    (hc : clean (litFor u) t) : unlinkGo u (t ++ r) = t ++ unlinkGo u r := by
  induction t with
  | nil => simp
  | cons c t2 ih =>
    have hnp : ¬ ((litFor u).isPrefixOf (c :: (t2 ++ r)) = true) := by
      intro hp
      exact clean_no_prefix_append (litFor u) (c :: t2) r (c :: t2) hc
        List.suffix_rfl (by simp) (List.isPrefixOf_iff_prefix.mp hp)
    rw [List.cons_append, unlinkGo_cons, if_neg hnp,
      ih (clean_tail (litFor u) c t2 hc), List.cons_append]

/-- `splitAtPat` passes over a clean chunk. -/
theorem splitAtPat_append_clean (pat t r : List Char) (hc : clean pat t) :
    splitAtPat pat (t ++ r) =
      (splitAtPat pat r).map (fun p => (t ++ p.1, p.2)) := by
  induction t with
  | nil =>
    cases h : splitAtPat pat r <;> simp [h]
  | cons c t2 ih =>
    have hnp : ¬ (pat.isPrefixOf (c :: (t2 ++ r)) = true) := by
      intro hp
      exact clean_no_prefix_append pat (c :: t2) r (c :: t2) hc
        List.suffix_rfl (by simp) (List.isPrefixOf_iff_prefix.mp hp)
    rw [List.cons_append]
    conv_lhs => rw [splitAtPat]
    rw [if_neg hnp, ih (clean_tail pat c t2 hc)]
    cases h : splitAtPat pat r <;> simp [h]

/-- `splitAtPat` at an immediate occurrence. -/
theorem splitAtPat_here (pat s : List Char) (hne : pat ≠ [])
    (hp : pat.isPrefixOf s = true) :
    splitAtPat pat s = some ([], s.drop pat.length) := by
  cases s with
  | nil =>
    have h2 := List.prefix_nil.mp (List.isPrefixOf_iff_prefix.mp hp)
    exact absurd h2 hne
  | cons c t =>
    unfold splitAtPat
    rw [if_pos hp]

/-- Unfolding `unlinkGo` when the opening literal matches immediately. -/
theorem unlinkGo_here (u : String) (s : List Char)
    (hp : (litFor u).isPrefixOf s = true) :
    unlinkGo u s =
      match splitAtPat closeA (s.drop (litFor u).length) with
      | none => s
      | some p => p.1 ++ unlinkGo u p.2 := by
  cases s with
  | nil =>
    have h2 := List.prefix_nil.mp (List.isPrefixOf_iff_prefix.mp hp)
    exact absurd h2 (litFor_ne_nil u)
  | cons c t =>
    rw [unlinkGo_cons, if_pos hp]

/-- The unlink scan unwraps a designated anchor: the opening literal and
the next `</a>` are removed, the inner content is kept in place, and the
scan resumes after the match. -/
theorem unlinkGo_designated (u : String) (inner r : List Char)
    (hin : clean closeA inner) :
    unlinkGo u (litFor u ++ (inner ++ (closeA ++ r))) =
      inner ++ unlinkGo u r := by
  rw [unlinkGo_here u _
    (List.isPrefixOf_iff_prefix.mpr (List.prefix_append _ _))]
  rw [List.drop_left]
  rw [splitAtPat_append_clean closeA inner (closeA ++ r) hin]
  rw [splitAtPat_here closeA (closeA ++ r) (by decide)
    (List.isPrefixOf_iff_prefix.mpr (List.prefix_append _ _))]
  rw [List.drop_left]
  simp

/-- A piece of rendered SVG markup: plain text, or a cross-reference
anchor `<a xlink:href="sql-grammar.html#u" xlink:title="u">inner</a>`. -/
inductive MItem where
  | raw (t : List Char)
  | link (u : String) (inner : List Char)
deriving DecidableEq, Repr

/-- Bytes of one markup item. -/
def renderItem : MItem → List Char
  | .raw t => t
  | .link u inner => litFor u ++ inner ++ closeA

/-- Bytes of a markup item list. -/
def render : List MItem → List Char
  | [] => []
  | it :: m => renderItem it ++ render m

/-- Sanity of one item with respect to the unlink name set `us`: text
chunks are clean for every unlink literal; an anchor's inner content is
clean for `</a>` and for every unlink literal, and for every unlink name
other than the anchor's own target the whole rendered anchor is a clean
chunk. -/
def itemSane (us : List String) : MItem → Prop
  | .raw t => ∀ u ∈ us, clean (litFor u) t
  | .link u2 inner =>
      clean closeA inner ∧ (∀ u ∈ us, clean (litFor u) inner) ∧
      ∀ u ∈ us, u ≠ u2 → clean (litFor u) (litFor u2 ++ inner ++ closeA)

instance itemSaneDec (us : List String) (it : MItem) : Decidable (itemSane us it) :=
  match it with
  | .raw t => inferInstanceAs (Decidable (∀ u ∈ us, clean (litFor u) t))
  | .link u2 inner =>
      inferInstanceAs (Decidable (clean closeA inner ∧
        (∀ u ∈ us, clean (litFor u) inner) ∧
        ∀ u ∈ us, u ≠ u2 → clean (litFor u) (litFor u2 ++ inner ++ closeA)))

/-- Sanity of a whole markup (no nested or spliced anchor material). -/
def saneMarkup (us : List String) (m : List MItem) : Prop :=
  ∀ it ∈ m, itemSane us it

instance saneMarkupDec (us : List String) (m : List MItem) :
    Decidable (saneMarkup us m) :=
  inferInstanceAs (Decidable (∀ it ∈ m, itemSane us it))

/-- Unwrap every anchor targeting `u`, keeping its inner content in
place. -/
def unwrapOne (u : String) (m : List MItem) : List MItem :=
  m.map (fun it =>
    match it with
    | .link u2 inner => if u2 = u then .raw inner else .link u2 inner
    | .raw t => .raw t)

/-- Unwrap the anchors of every name in `us`, in order. -/
def unwrapFold (us : List String) (m : List MItem) : List MItem :=
  us.foldl (fun m u => unwrapOne u m) m

/-- One unlink pass over sane markup unwraps exactly the designated
anchors. -/
theorem unlinkGo_render (us : List String) (u : String) (hu : u ∈ us) :
    ∀ m, saneMarkup us m → unlinkGo u (render m) = render (unwrapOne u m) := by
  intro m
  induction m with
  | nil => intro _; rfl
  | cons it m ih =>
    intro hs
    have hit := hs it (List.mem_cons_self it m)
    have hm : saneMarkup us m := fun x hx => hs x (List.mem_cons_of_mem it hx)
    cases it with
    | raw t =>
      show unlinkGo u (t ++ render m) = render (unwrapOne u (.raw t :: m))
      rw [unlinkGo_append_clean u t (render m) (hit u hu), ih hm]
      simp [unwrapOne, render, renderItem]
    | link u2 inner =>
      by_cases h2 : u2 = u
      · subst h2
        show unlinkGo u2 ((litFor u2 ++ inner ++ closeA) ++ render m) =
          render (unwrapOne u2 (.link u2 inner :: m))
        have hassoc : (litFor u2 ++ inner ++ closeA) ++ render m =
            litFor u2 ++ (inner ++ (closeA ++ render m)) := by
          simp [List.append_assoc]
        rw [hassoc, unlinkGo_designated u2 inner (render m) hit.1, ih hm]
        simp [unwrapOne, render, renderItem]
      · have hcl : clean (litFor u) (litFor u2 ++ inner ++ closeA) :=
          hit.2.2 u hu (fun he => h2 he.symm)
        show unlinkGo u ((litFor u2 ++ inner ++ closeA) ++ render m) =
          render (unwrapOne u (.link u2 inner :: m))
        rw [unlinkGo_append_clean u _ _ hcl, ih hm]
        simp [unwrapOne, render, renderItem, h2]

/-- Unwrapping preserves markup sanity. -/
theorem saneMarkup_unwrapOne (us : List String) (u : String) (m : List MItem)
    (hs : saneMarkup us m) : saneMarkup us (unwrapOne u m) := by
  intro it hit
  simp only [unwrapOne, List.mem_map] at hit
  obtain ⟨it0, hit0, heq⟩ := hit
  have h0 := hs it0 hit0
  cases it0 with
  | raw t =>
    cases heq
    exact h0
  | link u2 inner =>
    by_cases h2 : u2 = u
    · simp only [h2, if_pos rfl] at heq
      cases heq
      exact h0.2.1
    · simp only [if_neg h2] at heq
      cases heq
      exact h0

/-- The whole unlink loop over sane markup unwraps exactly the designated
anchors, keeping every anchor's inner content in place. -/
theorem unlinkFold_render (us0 : List String) :
    ∀ (us : List String) (m : List MItem), (∀ u ∈ us, u ∈ us0) →
      saneMarkup us0 m →
      unlinkFold us (render m) = render (unwrapFold us m) := by
  intro us
  induction us with
  | nil => intro m _ _; rfl
  | cons u us ih =>
    intro m hsub hs
    show unlinkFold us (unlinkGo u (render m)) = render (unwrapFold us (unwrapOne u m))
    rw [unlinkGo_render us0 u (hsub u (List.mem_cons_self u us)) m hs]
    exact ih (unwrapOne u m) (fun x hx => hsub x (List.mem_cons_of_mem u hx))
      (saneMarkup_unwrapOne us0 u m hs)

/-- `unwrapOne` leaves no anchor targeting its own name. -/
theorem unwrapOne_not_link_self (u : String) (m : List MItem) (inner : List Char) :
    MItem.link u inner ∉ unwrapOne u m := by
  intro h
  simp only [unwrapOne, List.mem_map] at h
  obtain ⟨it0, _, heq⟩ := h
  cases it0 with
  | raw t => cases heq
  | link u2 i =>
    by_cases h2 : u2 = u
    · simp only [h2, if_pos rfl] at heq
      cases heq
    · simp only [if_neg h2] at heq
      cases heq
      exact h2 rfl

/-- `unwrapOne` creates no anchors. -/
theorem unwrapOne_not_link_mono (u0 u : String) (m : List MItem)
    (h : ∀ inner, MItem.link u inner ∉ m) (inner : List Char) :
    MItem.link u inner ∉ unwrapOne u0 m := by
  intro hmem
  simp only [unwrapOne, List.mem_map] at hmem
  obtain ⟨it0, hit0, heq⟩ := hmem
  cases it0 with
  | raw t => cases heq
  | link u2 i =>
    by_cases h2 : u2 = u0
    · simp only [h2, if_pos rfl] at heq
      cases heq
    · simp only [if_neg h2] at heq
      cases heq
      exact h inner hit0

/-- `unwrapFold` creates no anchors. -/
theorem unwrapFold_not_link_mono (u : String) :
    ∀ (us : List String) (m : List MItem),
      (∀ inner, MItem.link u inner ∉ m) →
      ∀ inner, MItem.link u inner ∉ unwrapFold us m := by
  intro us
  induction us with
  | nil => intro m h inner; exact h inner
  | cons u1 us ih =>
    intro m h inner
    exact ih (unwrapOne u1 m) (fun i => unwrapOne_not_link_mono u1 u m h i) inner

/-- After the whole unwrap loop no anchor of an unlinked name remains. -/
theorem unwrapFold_not_link (u : String) :
    ∀ (us : List String) (m : List MItem), u ∈ us →
      ∀ inner, MItem.link u inner ∉ unwrapFold us m := by
  intro us
  induction us with
  | nil => intro m hu; simp at hu
  | cons u1 us ih =>
    intro m hu inner
    rcases List.mem_cons.mp hu with h | h
    · subst h
      exact unwrapFold_not_link_mono u us (unwrapOne u m)
        (fun i => unwrapOne_not_link_self u m i) inner
    · exact ih (unwrapOne u1 m) h inner

/-- `unwrapFold` preserves markup sanity. -/
theorem unwrapFold_sane (us0 : List String) :
    ∀ (us : List String) (m : List MItem), saneMarkup us0 m →
      saneMarkup us0 (unwrapFold us m) := by
  intro us
  induction us with
  | nil => intro m hs; exact hs
  | cons u1 us ih =>
    intro m hs
    exact ih (unwrapOne u1 m) (saneMarkup_unwrapOne us0 u1 m hs)

/-- A non-empty pattern occurs in an append only if it starts inside the
left chunk (impossible when the chunk is clean) or occurs in the right
part. -/
theorem not_infix_append_of_clean (pat : List Char) :
    ∀ t r, clean pat t → ¬ pat <:+: r → ¬ pat <:+: t ++ r := by
  intro t
  induction t with
  | nil =>
    intro r _ hr h
    exact hr (by simpa using h)
  | cons c t2 ih =>
    intro r hc hr h
    rw [List.cons_append, List.infix_cons_iff] at h
    cases h with
    | inl hpre =>
      exact clean_no_prefix_append pat (c :: t2) r (c :: t2) hc
        List.suffix_rfl (by simp) hpre
    | inr hinf => exact ih r (clean_tail pat c t2 hc) hr hinf

/-- Rendered sane markup without `u`-anchors contains no occurrence of the
`u`-anchor opening literal. -/
theorem render_no_lit (us0 : List String) (u : String) (hu : u ∈ us0) :
    ∀ m, saneMarkup us0 m → (∀ inner, MItem.link u inner ∉ m) →
      ¬ litFor u <:+: render m := by
  intro m
  induction m with
  | nil =>
    intro _ _ h
    exact litFor_ne_nil u (List.infix_nil.mp h)
  | cons it m ih =>
    intro hs hno h
    have hit := hs it (List.mem_cons_self it m)
    have hm : saneMarkup us0 m := fun x hx => hs x (List.mem_cons_of_mem it hx)
    have hno2 : ∀ inner, MItem.link u inner ∉ m :=
      fun i hi => hno i (List.mem_cons_of_mem _ hi)
    have hclean : clean (litFor u) (renderItem it) := by
      cases it with
      | raw t => exact hit u hu
      | link u2 inner =>
        refine hit.2.2 u hu (fun he => ?_)
        exact hno inner (by rw [he]; exact List.mem_cons_self _ _)
    exact not_infix_append_of_clean (litFor u) (renderItem it) (render m)
      hclean (ih hm hno2) h

/-- Claim C9 (amended): on markup whose anchors are well separated
(`saneMarkup`: no anchor material occurs inside text chunks or inner
content, and no splice across chunk edges — real rendered SVG, with its
non-nested anchors, has this shape), the worker's unlink loop removes
exactly the anchors of the unlinked names, preserves every removed
anchor's inner content in place, and leaves no anchor-opening literal
(hence no hyperlink element) targeting any unlinked name.  On arbitrary
bytes — e.g. nested anchors — a targeted anchor can survive. -/
theorem c9_unlink_strips_links (us : List String) (m : List MItem)
    (hs : saneMarkup us m) :
    unlinkFold us (render m) = render (unwrapFold us m) ∧
    ∀ u ∈ us, ¬ litFor u <:+: render (unwrapFold us m) := by
  constructor
  · exact unlinkFold_render us us m (fun u hu => hu) hs
  · intro u hu
    exact render_no_lit us u hu (unwrapFold us m)
      (unwrapFold_sane us us m hs)
      (fun inner => unwrapFold_not_link u us m hu inner)

/-- A concrete sane markup: one anchor targeting `ref` between two text
chunks. -/
def wfMarkup : List MItem :=
  [.raw "<svg><g>".data, .link "ref" "<text>ref</text>".data,
   .raw "</g></svg>".data]

/-- Witness for the amended C9: on `wfMarkup` the unlink loop for `ref`
yields the markup with the anchor unwrapped to its inner text, and no
`ref`-anchor opening literal remains. -/
theorem c9_witness :
    saneMarkup ["ref"] wfMarkup ∧
    unlinkFold ["ref"] (render wfMarkup) =
      render (unwrapFold ["ref"] wfMarkup) ∧
    ¬ litFor "ref" <:+: render (unwrapFold ["ref"] wfMarkup) := by
  have h := c9_unlink_strips_links ["ref"] wfMarkup (by decide)
  exact ⟨by decide, h.1, h.2 "ref" (List.mem_singleton.mpr rfl)⟩

/-- Markup with nested anchors targeting `n`. -/
def nestedBody : List Char :=
  litFor "n" ++ (litFor "n" ++ ("x".data ++ (closeA ++ closeA)))

/-- A collaborator whose svg extraction yields the nested markup. -/
def cNest : Collab :=
  ⟨fun _ _ _ _ _ _ _ => .ok "g".data none,
   fun _ g => .ok g, fun _ => .ok nestedBody, fun b => .ok b⟩

/-- The spec of the C9 counterexample. -/
def ceSpec : stmtSpec := { name := "ce", unlink := ["n"] }

/-- Claim C9 is false on the code as stated: for nested anchors the
written file still contains a complete hyperlink element targeting the
unlinked name `n` — the worker's lazy regex removes the outer opening tag
together with the inner anchor's close tag, leaving
`<a xlink:href="sql-grammar.html#n" xlink:title="n">x</a>` in the
output. -/
theorem c9_counterexample :
    runSpecWorker cNest rxId "" false "out" [] [] [] ceSpec =
      .wrote "out/ce.html" (litFor "n" ++ ("x".data ++ closeA)) := by
  decide

end GenDocs
